import Mathlib

/-!
# Verification of the SVG markup core

A shallow embedding of the markup core of the `svg` crate: the scanner
primitives, the streaming tokenizer (`src/parser/mod.rs`,
`src/events/parser/mod.rs`), the composer (`src/parser/writer.rs`), and the
tree builder (`src/node/parser/mod.rs`, `src/node/element/mod.rs`,
`src/node/mod.rs`), together with theorems settling the specification's
claims about them.

Strings are modelled as `List Char`; attribute values are modelled by the
rendered text of the external `Value` type, which is all the core inspects
(equality, iteration, and a `contains(char)` predicate on the rendered text).
-/

namespace SvgSpec

/-- Characters of the input buffer; the Rust side works on `&str` slices. -/
abbrev Str := List Char

/-- The double-quote character `"`. -/
def dquote : Char := Char.ofNat 34

/-- The single-quote character. -/
def squote : Char := Char.ofNat 39

/-- `Type` in `node/element/tag.rs`: the three tag kinds. -/
inductive TagKind where
  | Start
  | Empty
  | End
deriving DecidableEq, Repr

/-- `Attributes = HashMap<String, Value>` in `node/mod.rs`, modelled as an
association list from attribute name to the rendered text of its `Value`.
The list order stands for the hash map's arbitrary iteration order; a map
never holds two entries with the same name. -/
abbrev Attributes := List (Str × Str)

/-- `Event` of `parser/mod.rs`: one lexical unit produced by the tokenizer.
The `events/mod.rs` snapshot encodes the comment flag as two variants
(`Comment`/`UnpaddedCommend`); both carry the same information. -/
inductive Event where
  | Tag (name : Str) (kind : TagKind) (attributes : Attributes)
  | Text (content : Str)
  | Comment (content : Str) (padded : Bool)
  | Declaration (content : Str)
  | Instruction (content : Str)
deriving DecidableEq, Repr

/-- Whether an event is a `Tag` event of any kind. -/
def Event.isTag : Event → Bool
  | .Tag _ _ _ => true
  | _ => false

/-- Positioned diagnostics raised by the tokenizer, one constructor per
`raise!` site (the offsets are irrelevant to the claims and omitted). -/
inductive ParseError where
  | unknownSequence
  | malformedComment
  | malformedDeclaration
  | malformedInstruction
  | malformedTag
  | attributeSyntax
  | fuelExhausted
deriving DecidableEq, Repr

/-! ## Scanner primitives

`src/parser/reader.rs` and `src/events/parser/reader.rs` are not among the
sources; the consumption rules below are modelled from the spec, section 4.1.
Each consumer returns the consumed substring together with the rest of the
buffer, mirroring `Reader::capture` around the corresponding rule (the
capture succeeds exactly when the cursor advanced). -/

/-- Modelled from the spec: `Reader::capture` over `consume_until_char('<')`
(spec 4.1, "consume-until(`<`) for text runs"); the consumed substring is
returned when the cursor advanced. -/
def capture_until_lt (input : Str) : Option (Str × Str) :=
  let consumed := input.takeWhile (fun c => c != '<')
  if consumed.isEmpty then none
  else some (consumed, input.dropWhile (fun c => c != '<'))

/-- Modelled from the spec: scan for the first following `-->` (spec 4.1);
returns the characters before the delimiter and the rest after it. -/
def findCloseComment : Str → Option (Str × Str)
  | [] => none
  | c :: cs =>
    if c = '-' ∧ cs.take 2 = ['-', '>'] then some ([], cs.drop 2)
    else (findCloseComment cs).map (fun p => (c :: p.1, p.2))

/-- Modelled from the spec: scan for the first following `?>` (spec 4.1). -/
def findCloseInstruction : Str → Option (Str × Str)
  | [] => none
  | c :: cs =>
    if c = '?' ∧ cs.take 1 = ['>'] then some ([], cs.drop 1)
    else (findCloseInstruction cs).map (fun p => (c :: p.1, p.2))

/-- Modelled from the spec: scan for the next `>` that is not inside a
single- or double-quoted attribute value (spec 4.1); the first argument is
the currently open quote character, if any. -/
def scanToGt : Option Char → Str → Option (Str × Str)
  | _, [] => none
  | some q, c :: cs =>
    if c = q then (scanToGt none cs).map (fun p => (c :: p.1, p.2))
    else (scanToGt (some q) cs).map (fun p => (c :: p.1, p.2))
  | none, c :: cs =>
    if c = '>' then some ([], cs)
    else if c = dquote ∨ c = squote then
      (scanToGt (some c) cs).map (fun p => (c :: p.1, p.2))
    else (scanToGt none cs).map (fun p => (c :: p.1, p.2))

/-- Modelled from the spec: `Reader::consume_comment`, a complete
`<!--` … first following `-->` (spec 4.1). -/
def consume_comment : Str → Option (Str × Str)
  | '<' :: '!' :: '-' :: '-' :: rest =>
    (findCloseComment rest).map
      (fun p => ('<' :: '!' :: '-' :: '-' :: (p.1 ++ ['-', '-', '>']), p.2))
  | _ => none

/-- Modelled from the spec: `Reader::consume_declaration`, a complete
`<!` … next `>` not inside a quoted attribute value (spec 4.1). -/
def consume_declaration : Str → Option (Str × Str)
  | '<' :: '!' :: rest =>
    (scanToGt none rest).map (fun p => ('<' :: '!' :: (p.1 ++ ['>']), p.2))
  | _ => none

/-- Modelled from the spec: `Reader::consume_instruction`, a complete
`<?` … next `?>` (spec 4.1). -/
def consume_instruction : Str → Option (Str × Str)
  | '<' :: '?' :: rest =>
    (findCloseInstruction rest).map
      (fun p => ('<' :: '?' :: (p.1 ++ ['?', '>']), p.2))
  | _ => none

/-- Modelled from the spec: `Reader::consume_tag`, a complete `<` … the `>`
that is not inside a single- or double-quoted attribute value (spec 4.1). -/
def consume_tag : Str → Option (Str × Str)
  | '<' :: rest =>
    (scanToGt none rest).map (fun p => ('<' :: (p.1 ++ ['>']), p.2))
  | _ => none

/-! ## Tag interior parsing

`node/element/tag.rs` (`Tag::parse`) is not among the sources. -/

/-- Whitespace as used to separate a tag name from its attributes. -/
def wsChar (c : Char) : Bool :=
  c == ' ' || c == '\t' || c == '\n' || c == '\r'

/-- Modelled from the spec: the attribute list of a tag interior,
`name '=' ('"' value '"' | quoted with the single quote)` separated by
whitespace (spec sections 4.2 and 6); fails on malformed attribute syntax.
The fuel only bounds recursion and suffices whenever it exceeds the length
of the remaining input. -/
def parseAttrsF : Nat → Str → Except ParseError Attributes
  | 0, _ => .error .fuelExhausted
  | fuel + 1, l =>
    match l.dropWhile wsChar with
    | [] => .ok []
    | l' =>
      let name := l'.takeWhile (fun c => !wsChar c && c != '=')
      match l'.dropWhile (fun c => !wsChar c && c != '=') with
      | '=' :: r =>
        match r with
        | q :: r2 =>
          if q = dquote ∨ q = squote then
            let value := r2.takeWhile (fun c => c != q)
            match r2.dropWhile (fun c => c != q) with
            | _ :: r3 => (parseAttrsF fuel r3).map (fun attrs => (name, value) :: attrs)
            | [] => .error .attributeSyntax
          else .error .attributeSyntax
        | [] => .error .attributeSyntax
      | _ => .error .attributeSyntax

/-- Modelled from the spec: `Tag::parse` over a tag's interior text (spec
4.2): the kind is `End` when the interior starts with `/`, `Empty` when it
ends with `/` (stripped before further parsing), else `Start`; the name is
the leading non-whitespace run and the attribute mapping follows. -/
def tagParse (interior : Str) : Except ParseError (Str × TagKind × Attributes) :=
  match interior with
  | '/' :: rest => .ok (rest, .End, [])
  | _ =>
    let body := if interior.getLast? = some '/' then interior.dropLast else interior
    let kind := if interior.getLast? = some '/' then TagKind.Empty else TagKind.Start
    let name := body.takeWhile (fun c => !wsChar c)
    let after := body.dropWhile (fun c => !wsChar c)
    (parseAttrsF (after.length + 1) after).map (fun attrs => (name, kind, attrs))

/-! ## Tokenizer

Faithful to `src/parser/mod.rs` (equivalently the `src/events/parser/mod.rs`
snapshot); one `Option (Except _ _)` step per `Iterator::next` call. -/

/-- `str::strip_prefix(" ")`. -/
def stripLeadingSpace : Str → Option Str
  | [] => none
  | c :: rest => if c = ' ' then some rest else none

/-- `str::strip_suffix(" ")`. -/
def stripTrailingSpace (l : Str) : Option Str :=
  if l.getLast? = some ' ' then some l.dropLast else none

/-- `Event::parse_comment_body` / `Parser::parse_comment_body`: when the body
starts with a space and, after removing it, also ends with one, exactly one
space is stripped from each end and the comment is padded; otherwise the
body is kept verbatim and the comment is unpadded. -/
def parse_comment_body (body : Str) : Event :=
  match stripLeadingSpace body >>= stripTrailingSpace with
  | some content => .Comment content true
  | none => .Comment body false

/-- `Parser::read_comment`: the comment body is `content[4..len - 3]`. -/
def read_comment (input : Str) : Option (Except ParseError (Event × Str)) :=
  match consume_comment input with
  | none => some (.error .malformedComment)
  | some (content, rest) =>
    some (.ok (parse_comment_body ((content.drop 4).take (content.length - 7)), rest))

/-- `Parser::read_declaration`: the interior is `content[2..len - 1]`. -/
def read_declaration (input : Str) : Option (Except ParseError (Event × Str)) :=
  match consume_declaration input with
  | none => some (.error .malformedDeclaration)
  | some (content, rest) =>
    some (.ok (.Declaration ((content.drop 2).take (content.length - 3)), rest))

/-- `Parser::read_instruction`: the interior is `content[2..len - 2]`. -/
def read_instruction (input : Str) : Option (Except ParseError (Event × Str)) :=
  match consume_instruction input with
  | none => some (.error .malformedInstruction)
  | some (content, rest) =>
    some (.ok (.Instruction ((content.drop 2).take (content.length - 4)), rest))

/-- `Parser::read_tag`: the interior `content[1..len - 1]` goes to
`Tag::parse`. -/
def read_tag (input : Str) : Option (Except ParseError (Event × Str)) :=
  match consume_tag input with
  | none => some (.error .malformedTag)
  | some (content, rest) =>
    some ((tagParse ((content.drop 1).take (content.length - 2))).map
      (fun t => (Event.Tag t.1 t.2.1 t.2.2, rest)))

/-- `Parser::next_text`: capture a text run up to the next `<`. -/
def next_text (input : Str) : Option (Except ParseError (Event × Str)) :=
  (capture_until_lt input).map (fun p => .ok (.Text p.1, p.2))

/-- `Parser::next_angle`: classify the upcoming construct from at most four
characters of lookahead. -/
def next_angle (input : Str) : Option (Except ParseError (Event × Str)) :=
  if (input.take 4).isEmpty then none
  else if "<!--".data.isPrefixOf (input.take 4) then read_comment input
  else if "<!".data.isPrefixOf (input.take 4) then read_declaration input
  else if "<?".data.isPrefixOf (input.take 4) then read_instruction input
  else if "<".data.isPrefixOf (input.take 4) then read_tag input
  else some (.error .unknownSequence)

/-- `Parser::next` (the `Iterator` impl): a text run, else an angle
construct, else the end of the sequence. -/
def parserNext (input : Str) : Option (Except ParseError (Event × Str)) :=
  (next_text input).orElse (fun _ => next_angle input)

/-- Run the tokenizer to exhaustion with the given recursion fuel. -/
def tokenizeF : Nat → Str → Except ParseError (List Event)
  | 0, _ => .error .fuelExhausted
  | fuel + 1, input =>
    match parserNext input with
    | none => .ok []
    | some (.error e) => .error e
    | some (.ok (ev, rest)) => (tokenizeF fuel rest).map (ev :: ·)

/-- Collect every event of `Parser::new(input)`, failing on the first
diagnostic; every step consumes at least one character, so `length + 1`
steps always suffice. -/
def tokenize (input : Str) : Except ParseError (List Event) :=
  tokenizeF (input.length + 1) input

/-! ## Composer

Faithful to `src/parser/writer.rs`: the only writer state is the
`initial_event_written` flag; attribute values are inspected through
`Value::contains` on their rendered text. -/

/-- Byte-lexicographic comparison of attribute names, as Rust's `Ord` on
`&str` compares in `sort_by_key(|pair| pair.0.as_str())`. -/
def strLeB : Str → Str → Bool
  | [], _ => true
  | _ :: _, [] => false
  | a :: xs, b :: ys => if a < b then true else if b < a then false else strLeB xs ys

/-- The sorting relation of `Writer::write_attributes`: compare pairs by
attribute name only. -/
def attrLe (p q : Str × Str) : Prop := strLeB p.1 q.1 = true

instance : DecidableRel attrLe := fun _ _ => inferInstanceAs (Decidable (_ = true))

/-- `Writer::write_attribute`: quote selection on the rendered value; a value
holding both quote characters produces no output at all. -/
def write_attribute (name value : Str) : Str :=
  match value.contains squote, value.contains dquote with
  | true, false => ' ' :: (name ++ '=' :: dquote :: (value ++ [dquote]))
  | false, false => ' ' :: (name ++ '=' :: dquote :: (value ++ [dquote]))
  | false, true => ' ' :: (name ++ '=' :: squote :: (value ++ [squote]))
  | true, true => []

/-- `Writer::write_attributes`: collect the map's entries, sort them by
attribute name, and emit each in turn (`sort_by_key` is a comparison sort;
with the map's names unique, any such sort yields this sequence). -/
def write_attributes (attributes : Attributes) : Str :=
  (List.insertionSort attrLe attributes).foldl (fun acc p => acc ++ write_attribute p.1 p.2) []

/-- The bytes one event contributes after the separator decision: the bodies
of `write_start_tag`, `write_empty_tag`, `write_end_tag`, `write_text`,
`write_comment`, `write_declaration` and `write_instruction`. -/
def renderEvent : Event → Str
  | .Tag name .Start attributes => '<' :: (name ++ write_attributes attributes ++ ['>'])
  | .Tag name .Empty attributes => '<' :: (name ++ write_attributes attributes ++ ['/', '>'])
  | .Tag name .End _ => '<' :: '/' :: (name ++ ['>'])
  | .Text content => content
  | .Comment content true => "<!-- ".data ++ content ++ " -->".data
  | .Comment content false => "<!--".data ++ content ++ "-->".data
  | .Declaration content => '<' :: '!' :: (content ++ ['>'])
  | .Instruction content => '<' :: '?' :: (content ++ ['?', '>'])

/-- `Writer::write_event` including `initial_newline`: the bytes written for
this event and the updated `initial_event_written` flag. -/
def write_event (initial_event_written : Bool) (e : Event) : Str × Bool :=
  ((if initial_event_written then '\n' :: renderEvent e else renderEvent e), true)

/-- Feed every event of a list to `Writer::write_event` on a fresh writer
and collect the destination bytes. -/
def composeEvents (events : List Event) : Str :=
  (events.foldl (fun acc e => (acc.1 ++ (write_event acc.2 e).1, (write_event acc.2 e).2))
    (([] : Str), false)).1

/-! ## Tree builder

Faithful to `src/node/parser/mod.rs` and the `Node`/`Document` types of
`src/node/mod.rs`. -/

/-- `Node` of `node/mod.rs`; `comment` is the padded variant
(`Node::Comment`), `unpaddedComment` is `Node::UnpaddedComment`. -/
inductive Node where
  | element (name : Str) (attributes : Attributes) (children : List Node)
  | text (content : Str)
  | comment (content : Str)
  | unpaddedComment (content : Str)
  | declaration (content : Str)
  | instruction (content : Str)
deriving Repr

/-- `node/parser/error.rs` diagnostics, one constructor per `raise!` site of
`node/parser/mod.rs` (the error type carries only a message string; the
constructors stand for the distinct messages). -/
inductive BuildError where
  | noTags
  | endBeforeOpen (name : Str)
  | expectedMoreNodes
  | mismatchedEnd (expected found : Str)
  | missingEnd (name : Str)
  | secondTopLevelTag
  | expectedTag
  | fuelExhausted
deriving DecidableEq, Repr

/-- `Parser::process_prolog`: take non-tag events as prolog nodes until a
Start or Empty tag is ahead; an End tag or exhaustion is an error. -/
def process_prolog : List Event → Except BuildError (List Node × List Event)
  | [] => .error .noTags
  | .Tag name .Start attributes :: rest => .ok ([], .Tag name .Start attributes :: rest)
  | .Tag name .Empty attributes :: rest => .ok ([], .Tag name .Empty attributes :: rest)
  | .Tag name .End _ :: _ => .error (.endBeforeOpen name)
  | .Text c :: rest => (process_prolog rest).map (fun p => (.text c :: p.1, p.2))
  | .Comment c true :: rest => (process_prolog rest).map (fun p => (.comment c :: p.1, p.2))
  | .Comment c false :: rest =>
    (process_prolog rest).map (fun p => (.unpaddedComment c :: p.1, p.2))
  | .Declaration c :: rest => (process_prolog rest).map (fun p => (.declaration c :: p.1, p.2))
  | .Instruction c :: rest => (process_prolog rest).map (fun p => (.instruction c :: p.1, p.2))

/-- The child-collection loop of `Parser::process_tag` fused with
`Parser::process_node`: turn events into nodes until the next event is an
End tag or the sequence is exhausted; a Start tag recurses into the nested
element exactly as `process_node` recursing into `process_tag` does. The
fuel only bounds recursion and is never exhausted when it exceeds the
length of the event list. -/
def process_nodes : Nat → List Event → Except BuildError (List Node × List Event)
  | 0, _ => .error .fuelExhausted
  | _ + 1, [] => .ok ([], [])
  | _ + 1, .Tag name .End attributes :: rest => .ok ([], .Tag name .End attributes :: rest)
  | fuel + 1, .Tag name .Empty attributes :: rest =>
    (process_nodes fuel rest).map (fun p => (.element name attributes [] :: p.1, p.2))
  | fuel + 1, .Tag name .Start attributes :: rest => do
    let (children, r) ← process_nodes fuel rest
    match r with
    | .Tag closing .End _ :: r2 =>
      if closing = name then
        (process_nodes fuel r2).map (fun p => (.element name attributes children :: p.1, p.2))
      else .error (.mismatchedEnd name closing)
    | _ => .error (.missingEnd name)
  | fuel + 1, .Text c :: rest => (process_nodes fuel rest).map (fun p => (.text c :: p.1, p.2))
  | fuel + 1, .Comment c true :: rest =>
    (process_nodes fuel rest).map (fun p => (.comment c :: p.1, p.2))
  | fuel + 1, .Comment c false :: rest =>
    (process_nodes fuel rest).map (fun p => (.unpaddedComment c :: p.1, p.2))
  | fuel + 1, .Declaration c :: rest =>
    (process_nodes fuel rest).map (fun p => (.declaration c :: p.1, p.2))
  | fuel + 1, .Instruction c :: rest =>
    (process_nodes fuel rest).map (fun p => (.instruction c :: p.1, p.2))

/-- `Parser::process_tag`: one element from the head of the sequence; for a
Start tag, collect children and require the terminating event to be an End
tag with the identical name (`expected </N>, found </M>` and `missing </N>`
on violation). -/
def process_tag : List Event → Except BuildError ((Str × Attributes × List Node) × List Event)
  | .Tag name .Empty attributes :: rest => .ok ((name, attributes, []), rest)
  | .Tag name .Start attributes :: rest => do
    let (children, r) ← process_nodes (rest.length + 1) rest
    match r with
    | .Tag closing .End _ :: r2 =>
      if closing = name then .ok ((name, attributes, children), r2)
      else .error (.mismatchedEnd name closing)
    | _ => .error (.missingEnd name)
  | _ :: _ => .error .expectedTag
  | [] => .error .expectedTag

/-- `Parser::process_misc_followers`: remaining events become trailing
nodes; any tag event is an error. -/
def process_misc_followers : List Event → Except BuildError (List Node)
  | [] => .ok []
  | .Tag _ _ _ :: _ => .error .secondTopLevelTag
  | .Text c :: rest => (process_misc_followers rest).map (.text c :: ·)
  | .Comment c true :: rest => (process_misc_followers rest).map (.comment c :: ·)
  | .Comment c false :: rest => (process_misc_followers rest).map (.unpaddedComment c :: ·)
  | .Declaration c :: rest => (process_misc_followers rest).map (.declaration c :: ·)
  | .Instruction c :: rest => (process_misc_followers rest).map (.instruction c :: ·)

/-- `Document` of `node/mod.rs`: prolog nodes, the root element (name,
attributes, children of a `GenericElement`), and the trailing nodes. -/
structure Document where
  prolog : List Node
  svg : Str × Attributes × List Node
  misc_followers : List Node

/-- `Parser::process` / `Document::from_events`: the three phases in
sequence; any failure is terminal and no document is returned. -/
def processEvents (events : List Event) : Except BuildError Document := do
  let (prolog, r) ← process_prolog events
  let (svg, r2) ← process_tag r
  let misc_followers ← process_misc_followers r2
  .ok ⟨prolog, svg, misc_followers⟩

/-! ## Flattening a document back to events -/

mutual

/-- `Node::to_events` with `GenericElement::to_events` inlined for the
element case: a childless element becomes a single Empty tag event; an
element with children becomes a Start tag, the children's events, then an
End tag carrying an empty attribute map (`HashMap::new()`). -/
def nodeToEvents : Node → List Event
  | .element name attributes children =>
    if children.isEmpty then [.Tag name .Empty attributes]
    else .Tag name .Start attributes :: (nodesToEvents children ++ [.Tag name .End []])
  | .text c => [.Text c]
  | .comment c => [.Comment c true]
  | .unpaddedComment c => [.Comment c false]
  | .declaration c => [.Declaration c]
  | .instruction c => [.Instruction c]

/-- The concatenated events of a child list, in order (the `flat_map` in
`GenericElement::to_events`). -/
def nodesToEvents : List Node → List Event
  | [] => []
  | n :: ns => nodeToEvents n ++ nodesToEvents ns

end

/-! ## Structure of the scanner's captures -/

theorem findCloseComment_eq : ∀ {l mid rest : Str},
    findCloseComment l = some (mid, rest) → l = mid ++ '-' :: '-' :: '>' :: rest := by
  intro l
  induction l with
  | nil => intro mid rest h; simp [findCloseComment] at h
  | cons c cs ih =>
    intro mid rest h
    rw [findCloseComment] at h
    split at h
    · rename_i hc
      obtain ⟨rfl, htake⟩ := hc
      obtain ⟨rfl, rfl⟩ : mid = [] ∧ cs.drop 2 = rest := by
        simpa using h
      conv_lhs => rw [← List.take_append_drop 2 cs, htake]
      rfl
    · rcases hf : findCloseComment cs with _ | p
      · simp [hf] at h
      · rw [hf] at h
        obtain ⟨rfl, rfl⟩ : c :: p.1 = mid ∧ p.2 = rest := by simpa using h
        rw [ih hf]
        rfl

theorem findCloseInstruction_eq : ∀ {l mid rest : Str},
    findCloseInstruction l = some (mid, rest) → l = mid ++ '?' :: '>' :: rest := by
  intro l
  induction l with
  | nil => intro mid rest h; simp [findCloseInstruction] at h
  | cons c cs ih =>
    intro mid rest h
    rw [findCloseInstruction] at h
    split at h
    · rename_i hc
      obtain ⟨rfl, htake⟩ := hc
      obtain ⟨rfl, rfl⟩ : mid = [] ∧ cs.drop 1 = rest := by
        simpa using h
      conv_lhs => rw [← List.take_append_drop 1 cs, htake]
      rfl
    · rcases hf : findCloseInstruction cs with _ | p
      · simp [hf] at h
      · rw [hf] at h
        obtain ⟨rfl, rfl⟩ : c :: p.1 = mid ∧ p.2 = rest := by simpa using h
        rw [ih hf]
        rfl

theorem scanToGt_eq : ∀ {l : Str} {q : Option Char} {mid rest : Str},
    scanToGt q l = some (mid, rest) → l = mid ++ '>' :: rest := by
  intro l
  induction l with
  | nil => intro q mid rest h; cases q <;> simp [scanToGt] at h
  | cons c cs ih =>
    intro q mid rest h
    cases q with
    | some q0 =>
      rw [scanToGt] at h
      split at h
      · rcases hf : scanToGt none cs with _ | p
        · simp [hf] at h
        · rw [hf] at h
          obtain ⟨rfl, rfl⟩ : c :: p.1 = mid ∧ p.2 = rest := by simpa using h
          rw [ih hf]; rfl
      · rcases hf : scanToGt (some q0) cs with _ | p
        · simp [hf] at h
        · rw [hf] at h
          obtain ⟨rfl, rfl⟩ : c :: p.1 = mid ∧ p.2 = rest := by simpa using h
          rw [ih hf]; rfl
    | none =>
      rw [scanToGt] at h
      split at h
      · rename_i hc
        obtain ⟨rfl, rfl⟩ : mid = [] ∧ cs = rest := by simpa using h
        rw [hc]; rfl
      · split at h
        · rcases hf : scanToGt (some c) cs with _ | p
          · simp [hf] at h
          · rw [hf] at h
            obtain ⟨rfl, rfl⟩ : c :: p.1 = mid ∧ p.2 = rest := by simpa using h
            rw [ih hf]; rfl
        · rcases hf : scanToGt none cs with _ | p
          · simp [hf] at h
          · rw [hf] at h
            obtain ⟨rfl, rfl⟩ : c :: p.1 = mid ∧ p.2 = rest := by simpa using h
            rw [ih hf]; rfl

/-! ## The comment body: stripping one space from each end -/

theorem eq_dropLast_concat_of_getLast? {l : Str} {x : Char}
    (h : l.getLast? = some x) : l = l.dropLast ++ [x] := by
  induction l using List.reverseRecOn with
  | nil => simp at h
  | append_singleton l a _ =>
    rw [List.getLast?_concat] at h
    obtain rfl : a = x := by simpa using h
    rw [List.dropLast_concat]

theorem parse_comment_body_padded_iff {body c : Str} :
    parse_comment_body body = .Comment c true ↔ body = ' ' :: (c ++ [' ']) := by
  constructor
  · intro h
    rcases hl : stripLeadingSpace body with _ | r
    · rw [parse_comment_body, hl] at h
      simp at h
    · rcases hs : stripTrailingSpace r with _ | content
      · rw [parse_comment_body, hl] at h
        simp only [Option.bind_eq_bind, Option.some_bind, hs] at h
        simp at h
      · rw [parse_comment_body, hl] at h
        simp only [Option.bind_eq_bind, Option.some_bind, hs] at h
        have hcc : content = c := by simpa using h
        subst hcc
        have hbody : body = ' ' :: r := by
          cases body with
          | nil => simp [stripLeadingSpace] at hl
          | cons b bs =>
            rw [stripLeadingSpace] at hl
            by_cases hb : b = ' '
            · subst hb
              obtain rfl : bs = r := by simpa using hl
              rfl
            · simp [hb] at hl
        rw [stripTrailingSpace] at hs
        split at hs
        · rename_i hlast
          obtain rfl : r.dropLast = content := by simpa using hs
          rw [hbody]
          exact congrArg (' ' :: ·) (eq_dropLast_concat_of_getLast? hlast)
        · simp at hs
  · rintro rfl
    have h1 : stripLeadingSpace (' ' :: (c ++ [' '])) = some (c ++ [' ']) := rfl
    have h2 : stripTrailingSpace (c ++ [' ']) = some c := by
      rw [stripTrailingSpace, List.getLast?_concat]
      simp
    rw [parse_comment_body, h1]
    simp only [Option.bind_eq_bind, Option.some_bind, h2]

theorem parse_comment_body_unpadded {body : Str}
    (h : ¬ ∃ c, body = ' ' :: (c ++ [' '])) : parse_comment_body body = .Comment body false := by
  rw [parse_comment_body]
  rcases hb : stripLeadingSpace body >>= stripTrailingSpace with _ | content
  · rfl
  · exact absurd ⟨content, parse_comment_body_padded_iff.mp (by rw [parse_comment_body, hb])⟩ h

/-- The rendering of a comment event reproduces the original comment body
verbatim between the delimiters, whether or not a padding space was
stripped. -/
theorem renderEvent_parse_comment_body (mid : Str) :
    renderEvent (parse_comment_body mid) = "<!--".data ++ mid ++ "-->".data := by
  rcases hb : stripLeadingSpace mid >>= stripTrailingSpace with _ | content
  · rw [parse_comment_body, hb, renderEvent]
  · have hmid : mid = ' ' :: (content ++ [' ']) :=
      parse_comment_body_padded_iff.mp (by rw [parse_comment_body, hb])
    rw [parse_comment_body, hb, renderEvent, hmid]
    simp [String.data]

/-! ## Each reader reproduces its extent

A non-tag event renders to exactly the characters it was scanned from; these
lemmas drive the round-trip analysis. -/

theorem consume_comment_eq {input content rest : Str}
    (h : consume_comment input = some (content, rest)) :
    ∃ mid, content = '<' :: '!' :: '-' :: '-' :: (mid ++ ['-', '-', '>']) ∧
      input = content ++ rest := by
  unfold consume_comment at h
  split at h
  · rcases hf : findCloseComment _ with _ | p
    · rw [hf] at h; simp at h
    · rw [hf] at h
      obtain ⟨rfl, rfl⟩ :
          '<' :: '!' :: '-' :: '-' :: (p.1 ++ ['-', '-', '>']) = content ∧ p.2 = rest := by
        simpa using h
      refine ⟨p.1, rfl, ?_⟩
      rw [findCloseComment_eq hf]
      simp
  · simp at h

theorem consume_declaration_eq {input content rest : Str}
    (h : consume_declaration input = some (content, rest)) :
    ∃ mid, content = '<' :: '!' :: (mid ++ ['>']) ∧ input = content ++ rest := by
  unfold consume_declaration at h
  split at h
  · rcases hf : scanToGt none _ with _ | p
    · rw [hf] at h; simp at h
    · rw [hf] at h
      obtain ⟨rfl, rfl⟩ : '<' :: '!' :: (p.1 ++ ['>']) = content ∧ p.2 = rest := by
        simpa using h
      refine ⟨p.1, rfl, ?_⟩
      rw [scanToGt_eq hf]
      simp
  · simp at h

theorem consume_instruction_eq {input content rest : Str}
    (h : consume_instruction input = some (content, rest)) :
    ∃ mid, content = '<' :: '?' :: (mid ++ ['?', '>']) ∧ input = content ++ rest := by
  unfold consume_instruction at h
  split at h
  · rcases hf : findCloseInstruction _ with _ | p
    · rw [hf] at h; simp at h
    · rw [hf] at h
      obtain ⟨rfl, rfl⟩ : '<' :: '?' :: (p.1 ++ ['?', '>']) = content ∧ p.2 = rest := by
        simpa using h
      refine ⟨p.1, rfl, ?_⟩
      rw [findCloseInstruction_eq hf]
      simp
  · simp at h

theorem read_comment_extent {input rest : Str} {e : Event}
    (h : read_comment input = some (.ok (e, rest))) : renderEvent e ++ rest = input := by
  rw [read_comment] at h
  rcases hc : consume_comment input with _ | p
  · rw [hc] at h; simp at h
  · rw [hc] at h
    obtain ⟨rfl, rfl⟩ :
        parse_comment_body ((p.1.drop 4).take (p.1.length - 7)) = e ∧ p.2 = rest := by
      simpa using h
    obtain ⟨mid, hcontent, hinput⟩ := consume_comment_eq hc
    rw [hinput, hcontent]
    have hslice :
        ((('<' :: '!' :: '-' :: '-' :: (mid ++ ['-', '-', '>'])) : Str).drop 4).take
          ((('<' :: '!' :: '-' :: '-' :: (mid ++ ['-', '-', '>'])) : Str).length - 7) = mid := by
      show (mid ++ ['-', '-', '>']).take ((mid ++ ['-', '-', '>']).length + 4 - 7) = mid
      rw [List.length_append]
      show (mid ++ ['-', '-', '>']).take (mid.length + 3 + 4 - 7) = mid
      rw [Nat.add_assoc, Nat.add_sub_cancel]
      exact List.take_left mid _
    rw [hslice, renderEvent_parse_comment_body]
    simp [String.data]

theorem read_declaration_extent {input rest : Str} {e : Event}
    (h : read_declaration input = some (.ok (e, rest))) : renderEvent e ++ rest = input := by
  rw [read_declaration] at h
  rcases hc : consume_declaration input with _ | p
  · rw [hc] at h; simp at h
  · rw [hc] at h
    obtain ⟨rfl, rfl⟩ :
        Event.Declaration ((p.1.drop 2).take (p.1.length - 3)) = e ∧ p.2 = rest := by
      simpa using h
    obtain ⟨mid, hcontent, hinput⟩ := consume_declaration_eq hc
    rw [hinput, hcontent]
    have hslice :
        ((('<' :: '!' :: (mid ++ ['>'])) : Str).drop 2).take
          ((('<' :: '!' :: (mid ++ ['>'])) : Str).length - 3) = mid := by
      show (mid ++ ['>']).take ((mid ++ ['>']).length + 2 - 3) = mid
      rw [List.length_append]
      show (mid ++ ['>']).take (mid.length + 1 + 2 - 3) = mid
      rw [Nat.add_assoc, Nat.add_sub_cancel]
      exact List.take_left mid _
    rw [hslice, renderEvent]

theorem read_instruction_extent {input rest : Str} {e : Event}
    (h : read_instruction input = some (.ok (e, rest))) : renderEvent e ++ rest = input := by
  rw [read_instruction] at h
  rcases hc : consume_instruction input with _ | p
  · rw [hc] at h; simp at h
  · rw [hc] at h
    obtain ⟨rfl, rfl⟩ :
        Event.Instruction ((p.1.drop 2).take (p.1.length - 4)) = e ∧ p.2 = rest := by
      simpa using h
    obtain ⟨mid, hcontent, hinput⟩ := consume_instruction_eq hc
    rw [hinput, hcontent]
    have hslice :
        ((('<' :: '?' :: (mid ++ ['?', '>'])) : Str).drop 2).take
          ((('<' :: '?' :: (mid ++ ['?', '>'])) : Str).length - 4) = mid := by
      show (mid ++ ['?', '>']).take ((mid ++ ['?', '>']).length + 2 - 4) = mid
      rw [List.length_append]
      show (mid ++ ['?', '>']).take (mid.length + 2 + 2 - 4) = mid
      rw [Nat.add_assoc, Nat.add_sub_cancel]
      exact List.take_left mid _
    rw [hslice, renderEvent]

theorem read_tag_isTag {input rest : Str} {e : Event}
    (h : read_tag input = some (.ok (e, rest))) : e.isTag = true := by
  rw [read_tag] at h
  rcases hc : consume_tag input with _ | ⟨content, after⟩
  · rw [hc] at h; simp at h
  · rw [hc] at h
    replace h : some ((tagParse ((content.drop 1).take (content.length - 2))).map
        (fun t => (Event.Tag t.1 t.2.1 t.2.2, after))) = some (.ok (e, rest)) := h
    rcases ht : tagParse ((content.drop 1).take (content.length - 2)) with err | t
    · rw [ht] at h; simp [Except.map] at h
    · rw [ht] at h
      obtain ⟨rfl, rfl⟩ : Event.Tag t.1 t.2.1 t.2.2 = e ∧ after = rest := by
        simpa [Except.map] using h
      rfl

theorem next_text_extent {input rest : Str} {e : Event}
    (h : next_text input = some (.ok (e, rest))) : renderEvent e ++ rest = input := by
  rw [next_text, capture_until_lt] at h
  split at h
  · simp at h
  · obtain ⟨rfl, rfl⟩ :
        Event.Text (input.takeWhile (fun c => c != '<')) = e ∧
          input.dropWhile (fun c => c != '<') = rest := by
      simpa using h
    rw [renderEvent]
    exact List.takeWhile_append_dropWhile _ input

/-- One-pass fidelity of the tokenizer for non-tag events: the event's
rendering followed by the unconsumed rest reproduces the input exactly. -/
theorem parserNext_extent {input rest : Str} {e : Event}
    (h : parserNext input = some (.ok (e, rest))) (ht : e.isTag = false) :
    renderEvent e ++ rest = input := by
  rw [parserNext] at h
  rcases hnt : next_text input with _ | v
  · rw [hnt] at h
    simp only [Option.orElse] at h
    rw [next_angle] at h
    split at h
    · simp at h
    · split at h
      · exact read_comment_extent h
      · split at h
        · exact read_declaration_extent h
        · split at h
          · exact read_instruction_extent h
          · split at h
            · rw [read_tag_isTag h] at ht
              simp at ht
            · simp at h
  · rw [hnt] at h
    simp only [Option.orElse] at h
    obtain rfl : v = .ok (e, rest) := by simpa using h
    exact next_text_extent hnt

/-- The tokenizer ends the sequence only at the end of the input. -/
theorem parserNext_none {input : Str} (h : parserNext input = none) : input = [] := by
  cases input with
  | nil => rfl
  | cons c cs =>
    exfalso
    rw [parserNext] at h
    rcases hnt : next_text (c :: cs) with _ | v
    · rw [hnt] at h
      simp only [Option.orElse] at h
      rw [next_angle] at h
      have htake : ((c :: cs : Str).take 4).isEmpty = false := by
        cases cs <;> rfl
      rw [htake] at h
      simp only [Bool.false_eq_true, if_false] at h
      split at h
      · rw [read_comment] at h
        rcases hc : consume_comment (c :: cs) with _ | ⟨content, after⟩ <;>
          rw [hc] at h <;> simp at h
      · split at h
        · rw [read_declaration] at h
          rcases hc : consume_declaration (c :: cs) with _ | ⟨content, after⟩ <;>
            rw [hc] at h <;> simp at h
        · split at h
          · rw [read_instruction] at h
            rcases hc : consume_instruction (c :: cs) with _ | ⟨content, after⟩ <;>
              rw [hc] at h <;> simp at h
          · split at h
            · rw [read_tag] at h
              rcases hc : consume_tag (c :: cs) with _ | ⟨content, after⟩
              · rw [hc] at h; simp at h
              · rw [hc] at h
                replace h : some ((tagParse ((content.drop 1).take (content.length - 2))).map
                    (fun t => (Event.Tag t.1 t.2.1 t.2.2, after))) = none := h
                rcases ht : tagParse ((content.drop 1).take (content.length - 2)) with err | t <;>
                  rw [ht] at h <;> simp [Except.map] at h
            · simp at h
    · rw [hnt] at h
      simp [Option.orElse] at h

/-! ## Running the tokenizer to exhaustion -/

theorem tokenizeF_ok_nil {fuel : Nat} {input : Str}
    (h : tokenizeF fuel input = .ok []) : parserNext input = none := by
  cases fuel with
  | zero => simp [tokenizeF] at h
  | succ f =>
    rw [tokenizeF] at h
    rcases hp : parserNext input with _ | v
    · rfl
    · rcases v with err | ⟨ev, rest⟩
      · rw [hp] at h; simp at h
      · rw [hp] at h
        replace h : (tokenizeF f rest).map (ev :: ·) = Except.ok [] := h
        rcases ht : tokenizeF f rest with err | es <;> rw [ht] at h <;>
          simp [Except.map] at h

theorem tokenizeF_ok_cons {fuel : Nat} {input : Str} {e : Event} {es : List Event}
    (h : tokenizeF fuel input = .ok (e :: es)) :
    ∃ rest f, fuel = f + 1 ∧ parserNext input = some (.ok (e, rest)) ∧
      tokenizeF f rest = .ok es := by
  cases fuel with
  | zero => simp [tokenizeF] at h
  | succ f =>
    rw [tokenizeF] at h
    rcases hp : parserNext input with _ | v
    · rw [hp] at h; simp at h
    · rcases v with err | ⟨ev, rest⟩
      · rw [hp] at h; simp at h
      · rw [hp] at h
        replace h : (tokenizeF f rest).map (ev :: ·) = Except.ok (e :: es) := h
        rcases ht : tokenizeF f rest with err | es' <;> rw [ht] at h
        · simp [Except.map] at h
        · obtain ⟨rfl, rfl⟩ : ev = e ∧ es' = es := by simpa [Except.map] using h
          exact ⟨rest, f, rfl, rfl, ht⟩

/-- Writing a single event emits exactly its rendering: the separator logic
never fires on a fresh writer. -/
theorem composeEvents_singleton (e : Event) : composeEvents [e] = renderEvent e := by
  simp [composeEvents, write_event]

/-! ## The attribute ordering is a total preorder, antisymmetric on names -/

theorem strLeB_total : ∀ a b : Str, strLeB a b = true ∨ strLeB b a = true := by
  intro a
  induction a with
  | nil => intro b; left; rfl
  | cons x xs ih =>
    intro b
    cases b with
    | nil => right; rfl
    | cons y ys =>
      rcases lt_trichotomy x y with h | h | h
      · left; simp [strLeB, h]
      · subst h
        rcases ih ys with h2 | h2
        · left; simp [strLeB, lt_self_iff_false, h2]
        · right; simp [strLeB, lt_self_iff_false, h2]
      · right; simp [strLeB, h]

theorem strLeB_trans : ∀ {a b c : Str},
    strLeB a b = true → strLeB b c = true → strLeB a c = true := by
  intro a
  induction a with
  | nil => intro b c _ _; rfl
  | cons x xs ih =>
    intro b c hab hbc
    cases b with
    | nil => simp [strLeB] at hab
    | cons y ys =>
      cases c with
      | nil => simp [strLeB] at hbc
      | cons z zs =>
        rcases lt_trichotomy x y with h1 | h1 | h1
        · rcases lt_trichotomy y z with h2 | h2 | h2
          · simp [strLeB, lt_trans h1 h2]
          · subst h2; simp [strLeB, h1]
          · rw [strLeB] at hbc
            simp [lt_asymm h2, h2] at hbc
        · subst h1
          rcases lt_trichotomy x z with h2 | h2 | h2
          · simp [strLeB, h2]
          · subst h2
            rw [strLeB] at hab hbc ⊢
            simp only [lt_self_iff_false, if_false] at hab hbc ⊢
            exact ih hab hbc
          · rw [strLeB] at hbc
            simp [lt_asymm h2, h2] at hbc
        · rw [strLeB] at hab
          simp [lt_asymm h1, h1] at hab

theorem strLeB_antisymm : ∀ {a b : Str},
    strLeB a b = true → strLeB b a = true → a = b := by
  intro a
  induction a with
  | nil =>
    intro b _ hba
    cases b with
    | nil => rfl
    | cons y ys => simp [strLeB] at hba
  | cons x xs ih =>
    intro b hab hba
    cases b with
    | nil => simp [strLeB] at hab
    | cons y ys =>
      rcases lt_trichotomy x y with h | h | h
      · rw [strLeB] at hba
        simp [lt_asymm h, h] at hba
      · subst h
        rw [strLeB] at hab hba
        simp only [lt_self_iff_false, if_false] at hab hba
        rw [ih hab hba]
      · rw [strLeB] at hab
        simp [lt_asymm h, h] at hab

instance : IsTotal (Str × Str) attrLe := ⟨fun a b => strLeB_total a.1 b.1⟩

instance : IsTrans (Str × Str) attrLe :=
  ⟨fun _ _ _ hab hbc => strLeB_trans hab hbc⟩

/-- Two lists sorted by attribute name that are permutations of each other
and hold no duplicate name are identical: the sorted attribute sequence is
determined by the map's contents alone. -/
theorem sorted_perm_eq_of_nodup_keys :
    ∀ {l₁ l₂ : Attributes}, l₁.Sorted attrLe → l₂.Sorted attrLe → l₁.Perm l₂ →
      (l₁.map Prod.fst).Nodup → l₁ = l₂ := by
  intro l₁
  induction l₁ with
  | nil =>
    intro l₂ _ _ hp _
    exact (hp.symm.eq_nil).symm
  | cons a t₁ ih =>
    intro l₂ h₁ h₂ hp hnd
    cases l₂ with
    | nil => exact absurd hp.eq_nil (by simp)
    | cons b t₂ =>
      rw [List.map_cons, List.nodup_cons] at hnd
      by_cases hab : a = b
      · subst hab
        rw [ih (List.sorted_cons.mp h₁).2 (List.sorted_cons.mp h₂).2 hp.cons_inv hnd.2]
      · exfalso
        have ha2 : a ∈ t₂ := by
          rcases List.mem_cons.mp (hp.mem_iff.mp (List.mem_cons_self a t₁)) with h | h
          · exact absurd h hab
          · exact h
        have hb1 : b ∈ t₁ := by
          rcases List.mem_cons.mp (hp.mem_iff.mpr (List.mem_cons_self b t₂)) with h | h
          · exact absurd h.symm hab
          · exact h
        have hkey : a.1 = b.1 :=
          strLeB_antisymm (List.rel_of_sorted_cons h₁ b hb1) (List.rel_of_sorted_cons h₂ a ha2)
        exact hnd.1 (hkey ▸ List.mem_map_of_mem Prod.fst hb1)

/-! ## Tree-builder lemmas -/

theorem except_bind_ok {ε α β : Type} (a : α) (f : α → Except ε β) :
    (Except.ok (ε := ε) a >>= f) = f a := rfl

/-- Whether an event is a Start or Empty tag, the events that open an
element. -/
def Event.isOpenTag : Event → Bool
  | .Tag _ .Start _ => true
  | .Tag _ .Empty _ => true
  | _ => false

theorem process_prolog_no_open : ∀ {events : List Event},
    (∀ e ∈ events, e.isOpenTag = false) →
    ∃ err, process_prolog events = .error err := by
  intro events
  induction events with
  | nil => intro _; exact ⟨.noTags, rfl⟩
  | cons e rest ih =>
    intro h
    have he := h e (List.mem_cons_self e rest)
    obtain ⟨err, herr⟩ := ih (fun e' he' => h e' (List.mem_cons_of_mem e he'))
    cases e with
    | Tag name kind attributes =>
      cases kind with
      | Start => simp [Event.isOpenTag] at he
      | Empty => simp [Event.isOpenTag] at he
      | End => exact ⟨.endBeforeOpen name, rfl⟩
    | Text c => exact ⟨err, by rw [process_prolog, herr]; rfl⟩
    | Comment c p =>
      cases p
      · exact ⟨err, by rw [process_prolog, herr]; rfl⟩
      · exact ⟨err, by rw [process_prolog, herr]; rfl⟩
    | Declaration c => exact ⟨err, by rw [process_prolog, herr]; rfl⟩
    | Instruction c => exact ⟨err, by rw [process_prolog, herr]; rfl⟩

theorem process_nodes_flat : ∀ {flat : List Event} {fuel : Nat},
    (∀ e ∈ flat, e.isTag = false) → flat.length < fuel →
    ∃ ns, process_nodes fuel flat = .ok (ns, []) := by
  intro flat
  induction flat with
  | nil =>
    intro fuel _ hf
    cases fuel with
    | zero => omega
    | succ f => exact ⟨[], rfl⟩
  | cons e rest ih =>
    intro fuel h hf
    cases fuel with
    | zero => omega
    | succ f =>
      have he := h e (List.mem_cons_self e rest)
      have hlen : rest.length < f := by simpa using hf
      obtain ⟨ns, hns⟩ := ih (fun e' he' => h e' (List.mem_cons_of_mem e he')) hlen
      cases e with
      | Tag n k a => simp [Event.isTag] at he
      | Text c => exact ⟨.text c :: ns, by rw [process_nodes, hns]; rfl⟩
      | Comment c p =>
        cases p
        · exact ⟨.unpaddedComment c :: ns, by rw [process_nodes, hns]; rfl⟩
        · exact ⟨.comment c :: ns, by rw [process_nodes, hns]; rfl⟩
      | Declaration c => exact ⟨.declaration c :: ns, by rw [process_nodes, hns]; rfl⟩
      | Instruction c => exact ⟨.instruction c :: ns, by rw [process_nodes, hns]; rfl⟩

/-! ## Attribute emission as a flattening of the sorted entries -/

/-- Instance for deciding concrete tokenizer runs. -/
instance exceptDecEq {ε α : Type} [DecidableEq ε] [DecidableEq α] :
    DecidableEq (Except ε α) := fun a b =>
  match a, b with
  | .error e₁, .error e₂ =>
    if h : e₁ = e₂ then isTrue (by rw [h]) else isFalse (by simp [h])
  | .error _, .ok _ => isFalse (by simp)
  | .ok _, .error _ => isFalse (by simp)
  | .ok v₁, .ok v₂ =>
    if h : v₁ = v₂ then isTrue (by rw [h]) else isFalse (by simp [h])

theorem foldl_append_eq_flatten {α β : Type} (g : α → List β) :
    ∀ (l : List α) (acc : List β),
      l.foldl (fun a p => a ++ g p) acc = acc ++ (l.map g).flatten := by
  intro l
  induction l with
  | nil => intro acc; simp
  | cons p t ih =>
    intro acc
    rw [List.foldl_cons, ih, List.map_cons, List.flatten_cons]
    simp

theorem flatten_map_orderedInsert_nil {g : Str × Str → Str} {p : Str × Str}
    (hp : g p = []) : ∀ l : Attributes,
      ((List.orderedInsert attrLe p l).map g).flatten = (l.map g).flatten := by
  intro l
  induction l with
  | nil => simp [hp]
  | cons b t ih =>
    rw [List.orderedInsert]
    split
    · simp [hp]
    · rw [List.map_cons, List.flatten_cons, List.map_cons, List.flatten_cons, ih]

/-! ## Claim theorems -/

/-- C2: `Writer::write_attribute` wraps the rendered value in double quotes
whenever it contains no double quote (so also when it contains only a single
quote or neither); wraps it in single quotes when it contains a double quote
but no single quote; and writes nothing at all when the value contains both
quote characters — adding such an attribute to a tag's map leaves the
emitted attribute bytes unchanged, silently omitting the attribute. -/
theorem c2_quote_selection :
    (∀ name value : Str, value.contains dquote = false →
      write_attribute name value = ' ' :: (name ++ '=' :: dquote :: (value ++ [dquote]))) ∧
    (∀ name value : Str, value.contains dquote = true → value.contains squote = false →
      write_attribute name value = ' ' :: (name ++ '=' :: squote :: (value ++ [squote]))) ∧
    (∀ name value : Str, value.contains dquote = true → value.contains squote = true →
      write_attribute name value = []) ∧
    (∀ (attributes : Attributes) (name value : Str),
      value.contains dquote = true → value.contains squote = true →
      write_attributes ((name, value) :: attributes) = write_attributes attributes) := by
  have h1 : ∀ name value : Str, value.contains dquote = false →
      write_attribute name value = ' ' :: (name ++ '=' :: dquote :: (value ++ [dquote])) := by
    intro name value hd
    cases hs : value.contains squote <;> rw [write_attribute, hs, hd]
  have h3 : ∀ name value : Str, value.contains dquote = true → value.contains squote = true →
      write_attribute name value = [] := by
    intro name value hd hs
    rw [write_attribute, hs, hd]
  refine ⟨h1, ?_, h3, ?_⟩
  · intro name value hd hs
    rw [write_attribute, hs, hd]
  · intro attributes name value hd hs
    rw [write_attributes, write_attributes, foldl_append_eq_flatten, foldl_append_eq_flatten]
    show ((List.insertionSort attrLe ((name, value) :: attributes)).map
        (fun p => write_attribute p.1 p.2)).flatten = _
    rw [List.insertionSort]
    rw [flatten_map_orderedInsert_nil (h3 name value hd hs)]
    simp

/-- C9: the composer writes an End tag event as exactly `</name>` whatever
attribute map the event carries; the attributes never influence the bytes
`Writer::write_event` produces. -/
theorem c9_end_tag_attributes :
    ∀ (name : Str) (attributes : Attributes) (flag : Bool),
      renderEvent (.Tag name .End attributes) = '<' :: '/' :: (name ++ ['>']) ∧
      write_event flag (.Tag name .End attributes) = write_event flag (.Tag name .End []) :=
  fun _ _ _ => ⟨rfl, rfl⟩

/-- C5: the padded flag and content of a comment survive a parse-compose
round trip: `<!-- valid -->` tokenizes to the padded comment `valid`,
composing that event reproduces `<!-- valid -->` byte for byte, and
composing an unpadded comment with content `c` produces exactly
`<!--c-->`. -/
theorem c5_comment_roundtrip :
    tokenize "<!-- valid -->".data = .ok [.Comment "valid".data true] ∧
    composeEvents [.Comment "valid".data true] = "<!-- valid -->".data ∧
    ∀ content : Str,
      composeEvents [.Comment content false] = "<!--".data ++ content ++ "-->".data := by
  refine ⟨by decide, by decide, ?_⟩
  intro content
  rw [composeEvents_singleton]
  rfl

/-- C6: a text run extends up to but not including the next `<` and is
emitted verbatim: any non-empty `<`-free prefix becomes a `Text` event whose
content is that prefix exactly, stopping at `<` and only there; in
particular `foo <bar>` yields `Text("foo ")` and `foo> <bar>` yields
`Text("foo> ")` (a `>` does not terminate the run). -/
theorem takeWhile_dropWhile_until_lt : ∀ {s : Str} (t : Str), (∀ c ∈ s, c ≠ '<') →
    (s ++ '<' :: t).takeWhile (fun c => c != '<') = s ∧
    (s ++ '<' :: t).dropWhile (fun c => c != '<') = '<' :: t := by
  intro s
  induction s with
  | nil =>
    intro t _
    constructor
    · rw [List.nil_append, List.takeWhile_cons]; simp
    · rw [List.nil_append, List.dropWhile_cons]; simp
  | cons a as ih =>
    intro t h
    have ha : a ≠ '<' := h a (List.mem_cons_self a as)
    obtain ⟨ih1, ih2⟩ := ih t (fun c hc => h c (List.mem_cons_of_mem a hc))
    constructor
    · rw [List.cons_append, List.takeWhile_cons]
      simp [ha, ih1]
    · rw [List.cons_append, List.dropWhile_cons]
      simp [ha, ih2]

theorem c6_text_run :
    (∀ s t : Str, s ≠ [] → (∀ c ∈ s, c ≠ '<') →
      parserNext (s ++ '<' :: t) = some (.ok (.Text s, '<' :: t))) ∧
    parserNext "foo <bar>".data = some (.ok (.Text "foo ".data, "<bar>".data)) ∧
    parserNext "foo> <bar>".data = some (.ok (.Text "foo> ".data, "<bar>".data)) := by
  refine ⟨?_, by decide, by decide⟩
  intro s t hne h
  obtain ⟨htw, hdw⟩ := takeWhile_dropWhile_until_lt t h
  have hcap : capture_until_lt (s ++ '<' :: t) = some (s, '<' :: t) := by
    rw [capture_until_lt]
    simp only [htw, hdw]
    simp [List.isEmpty_iff, hne]
  rw [parserNext, next_text, hcap]
  rfl

/-- C4: the tokenizer strips the `<!--` and `-->` delimiters from a comment;
the remaining body is marked padded with exactly one space removed from each
end precisely when it starts with a space and, after that space, also ends
with one; otherwise the body is kept verbatim and marked unpadded. The check
looks for the single space character only: a tab-padded body stays verbatim
and unpadded, and a doubly space-padded body loses exactly one space from
each end, not all of them. -/
theorem c4_comment_padding :
    (∀ body content : Str,
      parse_comment_body body = .Comment content true ↔ body = ' ' :: (content ++ [' '])) ∧
    (∀ body : Str, (¬ ∃ content, body = ' ' :: (content ++ [' '])) →
      parse_comment_body body = .Comment body false) ∧
    tokenize "<!-- ab -->".data = .ok [.Comment "ab".data true] ∧
    tokenize "<!--\tab\t-->".data = .ok [.Comment "\tab\t".data false] ∧
    tokenize "<!--  ab  -->".data = .ok [.Comment (' ' :: ("ab".data ++ [' '])) true] :=
  ⟨fun _ _ => parse_comment_body_padded_iff, fun _ h => parse_comment_body_unpadded h,
    by decide, by decide, by decide⟩

/-- C7: building a document from an event sequence holding no Start and no
Empty tag event fails with an error — the prolog phase either exhausts the
sequence (`no tags in document`, in particular on the empty sequence) or
meets a premature End tag; no document is ever returned. -/
theorem c7_no_element :
    (∀ events : List Event, (∀ e ∈ events, e.isOpenTag = false) →
      ∃ err, processEvents events = .error err) ∧
    processEvents [] = .error .noTags := by
  constructor
  · intro events h
    obtain ⟨err, herr⟩ := process_prolog_no_open h
    exact ⟨err, by rw [processEvents, herr]; rfl⟩
  · rfl

/-- C8: collecting the children of a Start tag named `N` must end at an End
tag named `N`: an End tag with a different name fails with the mismatch
error whatever attributes or further events follow (so `[Start(a), End(b)]`
fails), and exhausting the sequence — here after any run of non-tag
events — fails with the missing-closing-tag error. -/
theorem c8_closing_tag :
    (∀ (name closing : Str) (atStart atEnd : Attributes) (rest : List Event), closing ≠ name →
      process_tag (.Tag name .Start atStart :: .Tag closing .End atEnd :: rest) =
        .error (.mismatchedEnd name closing)) ∧
    (∀ (name : Str) (atStart : Attributes) (flat : List Event), (∀ e ∈ flat, e.isTag = false) →
      process_tag (.Tag name .Start atStart :: flat) = .error (.missingEnd name)) ∧
    processEvents [.Tag "a".data .Start [], .Tag "b".data .End []] =
      .error (.mismatchedEnd "a".data "b".data) := by
  refine ⟨?_, ?_, by rfl⟩
  · intro name closing atStart atEnd rest h
    rw [process_tag]
    have hn : process_nodes ((Event.Tag closing .End atEnd :: rest).length + 1)
        (.Tag closing .End atEnd :: rest) = .ok ([], .Tag closing .End atEnd :: rest) := by
      rw [process_nodes]
    rw [hn, except_bind_ok]
    simp [h]
  · intro name atStart flat h
    obtain ⟨ns, hns⟩ := process_nodes_flat h (Nat.lt_succ_self _)
    rw [process_tag, hns]
    rfl

/-- C10: flattening a document's tree back to events turns every childless
element into a single Empty tag event — also when the element came from a
Start/End pair with nothing between them, whatever attributes that End tag
carried — and turns an element with children into its Start tag, the
children's events in order, then an End tag carrying an empty attribute
map. -/
theorem c10_flatten :
    (∀ (name : Str) (atStart atEnd : Attributes),
      process_tag [.Tag name .Start atStart, .Tag name .End atEnd] =
        .ok ((name, atStart, []), []) ∧
      nodeToEvents (.element name atStart []) = [.Tag name .Empty atStart]) ∧
    (∀ (name : Str) (attributes : Attributes) (children : List Node), children ≠ [] →
      nodeToEvents (.element name attributes children) =
        .Tag name .Start attributes :: (nodesToEvents children ++ [.Tag name .End []])) := by
  constructor
  · intro name atStart atEnd
    constructor
    · rw [process_tag]
      have hn : process_nodes (([Event.Tag name .End atEnd] : List Event).length + 1)
          [.Tag name .End atEnd] = .ok ([], [.Tag name .End atEnd]) := by
        rw [process_nodes]
      rw [hn, except_bind_ok]
      simp
    · rw [nodeToEvents]
      rfl
  · intro name attributes children h
    cases children with
    | nil => exact absurd rfl h
    | cons n ns =>
      rw [nodeToEvents]
      rfl

/-- C3: `Writer::write_attributes` emits a tag's attributes sorted by
attribute name in ascending byte-lexicographic order: the sorted sequence
is `Sorted` under the name comparison, any two iteration orders of the same
attribute map (permutations without duplicate names) produce identical
output, and the empty tag `foo` with attributes inserted in the order
`x, y, s, c` serializes with attribute order `c, s, x, y`. -/
theorem c3_attribute_order :
    (∀ attributes : Attributes, (List.insertionSort attrLe attributes).Sorted attrLe) ∧
    (∀ l₁ l₂ : Attributes, l₁.Perm l₂ → (l₁.map Prod.fst).Nodup →
      write_attributes l₁ = write_attributes l₂) ∧
    renderEvent (.Tag "foo".data .Empty
      [("x".data, "-10".data), ("y".data, "10px".data),
       ("s".data, "12.5 13".data), ("c".data, "green".data)]) =
      '<' :: ("foo".data ++
        ((' ' :: ("c".data ++ '=' :: dquote :: ("green".data ++ [dquote]))) ++
         ((' ' :: ("s".data ++ '=' :: dquote :: ("12.5 13".data ++ [dquote]))) ++
          ((' ' :: ("x".data ++ '=' :: dquote :: ("-10".data ++ [dquote]))) ++
           (' ' :: ("y".data ++ '=' :: dquote :: ("10px".data ++ [dquote])))))) ++ ['/', '>']) := by
  refine ⟨fun attributes => List.sorted_insertionSort attrLe attributes, ?_, by decide⟩
  intro l₁ l₂ hperm hnd
  have hs : List.insertionSort attrLe l₁ = List.insertionSort attrLe l₂ :=
    sorted_perm_eq_of_nodup_keys (List.sorted_insertionSort _ _) (List.sorted_insertionSort _ _)
      (((List.perm_insertionSort attrLe l₁).trans hperm).trans
        (List.perm_insertionSort attrLe l₂).symm)
      (((List.perm_insertionSort attrLe l₁).map Prod.fst).nodup_iff.mpr hnd)
  rw [write_attributes, write_attributes, hs]

/-- C1 (amended): the composer inserts one newline between consecutive
events, so byte-for-byte round-tripping survives only on inputs that
tokenize to a single non-tag event: for such an input, composing the event
sequence of `Parser::new(input)` reproduces the input exactly. -/
theorem c1_roundtrip_single_event :
    ∀ (input : Str) (e : Event), tokenize input = .ok [e] → e.isTag = false →
      composeEvents [e] = input := by
  intro input e h ht
  obtain ⟨rest, f, _, hp, hnil⟩ := tokenizeF_ok_cons h
  have hrest : rest = [] := parserNext_none (tokenizeF_ok_nil hnil)
  subst hrest
  rw [composeEvents_singleton]
  have hext := parserNext_extent hp ht
  simpa using hext

/-- C1 counterexample: the well-formed input `<a></a>` — accepted by the
tree builder as a document — tokenizes to a Start and an End event, and
composing those two events yields `<a>\n</a>`, which differs from the
input: `compose(tokenize(T)) = T` fails on it. -/
theorem c1_counterexample :
    tokenize "<a></a>".data = .ok [.Tag "a".data .Start [], .Tag "a".data .End []] ∧
    processEvents [.Tag "a".data .Start [], .Tag "a".data .End []] =
      .ok ⟨[], ("a".data, [], []), []⟩ ∧
    composeEvents [.Tag "a".data .Start [], .Tag "a".data .End []] = "<a>\n</a>".data ∧
    "<a>\n</a>".data ≠ "<a></a>".data :=
  ⟨by decide, by rfl, by decide, by decide⟩

/-! ## Witnesses -/

/-- Witness for C1 (amended), at the padded comment input `<!-- hi -->`. -/
theorem c1_roundtrip_single_event_witness :
    composeEvents [.Comment "hi".data true] = "<!-- hi -->".data :=
  c1_roundtrip_single_event "<!-- hi -->".data (.Comment "hi".data true)
    (by decide) (by decide)

/-- Witness for C2, at a value containing only a single quote. -/
theorem c2_quote_selection_witness :
    write_attribute "a".data (squote :: "x".data) =
      ' ' :: ("a".data ++ '=' :: dquote :: ((squote :: "x".data) ++ [dquote])) :=
  c2_quote_selection.1 "a".data (squote :: "x".data) (by decide)

/-- Witness for C3, at two insertion orders of the same two-attribute map. -/
theorem c3_attribute_order_witness :
    write_attributes [("b".data, "1".data), ("a".data, "2".data)] =
      write_attributes [("a".data, "2".data), ("b".data, "1".data)] :=
  c3_attribute_order.2.1 [("b".data, "1".data), ("a".data, "2".data)]
    [("a".data, "2".data), ("b".data, "1".data)]
    (List.Perm.swap _ _ _) (by decide)

/-- Witness for C4, at the body ` v `. -/
theorem c4_comment_padding_witness :
    parse_comment_body (' ' :: ("v".data ++ [' '])) = .Comment "v".data true :=
  (c4_comment_padding.1 (' ' :: ("v".data ++ [' '])) "v".data).mpr rfl

/-- Witness for C6, at the input `ab<c`. -/
theorem c6_text_run_witness :
    parserNext ("ab".data ++ '<' :: "c".data) =
      some (.ok (.Text "ab".data, '<' :: "c".data)) :=
  c6_text_run.1 "ab".data "c".data (by decide) (by decide)

/-- Witness for C7, at the singleton text event sequence. -/
theorem c7_no_element_witness :
    ∃ err, processEvents [.Text "x".data] = .error err :=
  c7_no_element.1 [.Text "x".data] (by decide)

/-- Witness for C8, at `[Start(a), End(b)]`. -/
theorem c8_closing_tag_witness :
    process_tag [.Tag "a".data .Start [], .Tag "b".data .End []] =
      .error (.mismatchedEnd "a".data "b".data) :=
  c8_closing_tag.1 "a".data "b".data [] [] [] (by decide)

/-- Witness for C10, at an element with one text child. -/
theorem c10_flatten_witness :
    nodeToEvents (.element "a".data [] [.text "x".data]) =
      .Tag "a".data .Start [] :: (nodesToEvents [.text "x".data] ++ [.Tag "a".data .End []]) :=
  c10_flatten.2 "a".data [] [.text "x".data] (List.cons_ne_nil _ _)

end SvgSpec
